import Mathlib

/-!
Verification of the op1 semantic code-intelligence engine against its
natural-language specification.

The development shallowly embeds the TypeScript source in Lean:

* pure functions become Lean functions on `List`/`String`/`ℕ`/`ℤ`/`ℚ`;
* JavaScript `Map` objects become association lists with JS `Map.set`
  semantics (update-in-place for an existing key, append otherwise);
* JavaScript `Array.prototype.sort` (a stable sort) is modelled by
  `List.insertionSort`, which is also stable;
* SQLite state is modelled as lists of row records and SQL statements as
  list comprehensions over them;
* functions of external systems that the repository only calls (SHA-256,
  the FTS5 bm25 ranker and query parser, `Math.sqrt`) are taken as
  parameters of the embedded definitions.

Sources embedded here:
* `packages/semantic-search/src/merkle-cache.ts` (MerkleCache)
* `packages/code-intel/src/storage/schema.ts`, `file-store.ts`,
  `keyword-store.ts` (store layer)
* `packages/code-intel/src/query/keyword-search.ts`, `vector-search.ts`
* the smart-query / rrf-fusion / impact-analysis / branch-diff modules of
  `packages/code-intel/src/query`.
-/

/-! ## JavaScript `Map` as an association list -/

/-- JS `Map.prototype.set`: if the key is present the value is replaced in
place (the entry keeps its position); otherwise the entry is appended. -/
def jsMapSet {κ ν : Type} [DecidableEq κ] (m : List (κ × ν)) (k : κ) (v : ν) :
    List (κ × ν) :=
  if m.any (fun p => decide (p.1 = k)) then
    m.map (fun p => if p.1 = k then (k, v) else p)
  else
    m ++ [(k, v)]

/-- JS `Map.prototype.get` (first entry with the key; keys are unique in a
real `Map`, the association list preserves that invariant under
`jsMapSet`). -/
def jsMapGet {κ ν : Type} [DecidableEq κ] (m : List (κ × ν)) (k : κ) :
    Option ν :=
  (m.find? (fun p => decide (p.1 = k))).map Prod.snd

namespace MerkleCache

/-! ## Merkle cache (`merkle-cache.ts`)

File paths are kept as an arbitrary type `π` with a linear order; the
source uses JS strings ordered by `String.prototype.localeCompare`, which
is some total order on paths (the tree-building claims only depend on it
being one).  Content hashing (`createHash("sha256")`) is a parameter
`hashC : String → String`. -/

/-- `FileHashRecord` of merkle-cache.ts. -/
structure FileHashRecord where
  hash : String
  mtime : Int
  size : Int
deriving DecidableEq

/-- Result of `Bun.file(path).stat()` plus `file.text()`: the file content
and its stat metadata.  A file that cannot be read is `none` in the
filesystem model (the `catch` branch of `hashFile`). -/
structure FileStat where
  content : String
  mtime : Int
  size : Int

/-- The mutable `fileHashes : Map<string, FileHashRecord>` of `MerkleCache`
(the `rootHash`/`dirty` caching fields do not affect the embedded
operations and are omitted). -/
def CacheState (π : Type) : Type := List (π × FileHashRecord)

/-- `MerkleCache.hashFile`: fast path when `mtime` and `size` are unchanged,
otherwise re-read, re-hash and update the map.  Returns the hash (or `none`
on a read failure) together with the updated map. -/
def hashFile {π : Type} [DecidableEq π] (hashC : String → String)
    (fs : π → Option FileStat) (st : CacheState π) (filePath : π) :
    Option String × CacheState π :=
  match fs filePath with
  | none => (none, st)
  | some f =>
    match jsMapGet st filePath with
    | some cached =>
      if cached.mtime = f.mtime ∧ cached.size = f.size then
        (some cached.hash, st)
      else
        let h := hashC f.content
        (some h, jsMapSet st filePath ⟨h, f.mtime, f.size⟩)
    | none =>
      let h := hashC f.content
      (some h, jsMapSet st filePath ⟨h, f.mtime, f.size⟩)

/-- `MerkleCache.hashFiles`: hashes each path and collects the results in a
`Map` keyed by path.  The source batches the `hashFile` calls with bounded
concurrency; since each call only touches its own key of `fileHashes` and
the filesystem is read-only during the batch, the sequential fold has the
same semantics. -/
def hashFiles {π : Type} [DecidableEq π] (hashC : String → String)
    (fs : π → Option FileStat) (st : CacheState π) (filePaths : List π) :
    List (π × Option String) × CacheState π :=
  filePaths.foldl
    (fun acc fp =>
      let r := hashFile hashC fs acc.2 fp
      (jsMapSet acc.1 fp r.1, r.2))
    ([], st)

/-- Return type of `findChangedFiles`. -/
structure ChangedFiles (π : Type) where
  added : List π
  modified : List π
  unchanged : List π
deriving DecidableEq

/-- `MerkleCache.findChangedFiles`: hashes the given paths (which, in the
source, updates `this.fileHashes` as a side effect) and then compares each
computed hash against `this.fileHashes` — the already-updated map. -/
def findChangedFiles {π : Type} [DecidableEq π] (hashC : String → String)
    (fs : π → Option FileStat) (st : CacheState π) (filePaths : List π) :
    ChangedFiles π × CacheState π :=
  let hashed := hashFiles hashC fs st filePaths
  let currentHashes := hashed.1
  let st2 := hashed.2
  let r := currentHashes.foldl
    (fun (r : ChangedFiles π) p =>
      match p.2 with
      | none => r
      | some h =>
        match jsMapGet st2 p.1 with
        | none => { r with added := r.added ++ [p.1] }
        | some cached =>
          if cached.hash ≠ h then { r with modified := r.modified ++ [p.1] }
          else { r with unchanged := r.unchanged ++ [p.1] })
    ⟨[], [], []⟩
  (r, st2)

/-- One level of `buildTree`'s bottom-up loop: pair up adjacent nodes,
hashing `left.hash + right.hash`; the last node of an odd level is
duplicated (`level[i + 1] ?? left`). -/
def pairUp (hashC : String → String) : List String → List String
  | [] => []
  | [a] => [hashC (a ++ a)]
  | a :: b :: rest => hashC (a ++ b) :: pairUp hashC rest

theorem pairUp_length (hashC : String → String) :
    ∀ l : List String, (pairUp hashC l).length = (l.length + 1) / 2
  | [] => rfl
  | [_] => by simp [pairUp]
  | _ :: _ :: rest => by
    simp only [pairUp, List.length_cons, pairUp_length hashC rest]
    omega

/-- The bottom-up loop of `buildTree` reduced to root hashes: starting from
the leaf hashes, repeatedly `pairUp` until one node is left.  An empty
cache yields `hashContent("")`. -/
def buildLevels (hashC : String → String) : List String → String
  | [] => hashC ""
  | [h] => h
  | a :: b :: rest => buildLevels hashC (pairUp hashC (a :: b :: rest))
termination_by l => l.length
decreasing_by
  simp only [pairUp_length, List.length_cons]
  omega

/-- `MerkleCache.buildTree`: sort the `(path, record)` entries by path
(`localeCompare`, modelled by the linear order on `π`), take the leaf
hashes in that order and fold the levels. -/
def buildTree {π : Type} [LinearOrder π] (hashC : String → String)
    (entries : CacheState π) : String :=
  buildLevels hashC
    ((List.insertionSort (fun a b => a.1 ≤ b.1) entries).map
      (fun p => p.2.hash))

end MerkleCache

/-! ## Row types of the code-intel store (`schema.ts`, `types.ts`) -/

/-- A row of the `symbols` table (`SymbolNode` in `types.ts`).  `type` and
`language` are kept as strings. -/
structure SymbolRow where
  id : String
  name : String
  qualified_name : String
  type : String
  language : String
  file_path : String
  start_line : ℕ
  end_line : ℕ
  content : String
  signature : Option String
  docstring : Option String
  content_hash : String
  is_external : Bool
  branch : String
  updated_at : Int
  revision_id : ℕ
deriving DecidableEq

/-- A row of the `edges` table (`SymbolEdge` in `types.ts`); the optional
line-range and metadata columns are omitted (no embedded operation reads
them). -/
structure EdgeRow where
  id : String
  source_id : String
  target_id : String
  type : String
  confidence : ℚ
  origin : String
  branch : String
  updated_at : Int
deriving DecidableEq

namespace FileStore

/-! ## File store (`storage/file-store.ts` over the `files` table)

Per `schema.ts` the `files` table is declared with
`file_path TEXT PRIMARY KEY` — the key does **not** include `branch`. -/

/-- A row of the `files` table (`FileRecord` in `types.ts`). -/
structure FileRecord where
  file_path : String
  file_hash : String
  mtime : Int
  size : Int
  last_indexed : Int
  language : String
  branch : String
  status : String
  symbol_count : ℕ
  importance_rank : Option ℚ
  error_message : Option String
deriving DecidableEq

/-- `createFileStore.upsert`: `INSERT OR REPLACE INTO files ...`.  SQLite
`INSERT OR REPLACE` deletes any row that conflicts on the primary key —
which is `file_path` alone — and inserts the new row. -/
def upsert (table : List FileRecord) (f : FileRecord) : List FileRecord :=
  table.filter (fun r => !(r.file_path == f.file_path)) ++ [f]

/-- `createFileStore.getByPath`:
`SELECT * FROM files WHERE file_path = ? AND branch = ?` via `.get`
(first matching row or null). -/
def getByPath (table : List FileRecord) (filePath branch : String) :
    Option FileRecord :=
  (table.filter (fun r => r.file_path == filePath && r.branch == branch)).head?

end FileStore

namespace KeywordSearch

/-! ## Keyword search (`query/keyword-search.ts` over `fts_symbols`)

Per `schema.ts` the FTS5 table `fts_symbols` has columns
`symbol_id, name, qualified_name, content, file_path` — and no branch
column.  The `bm25` ranking function and the FTS5 query parser are
SQLite internals and are passed as parameters: `bm25 : FtsRow → ℚ` (the
raw rank; lower is a better match) and `ftsError : String → Bool` (whether
the FTS5 parser rejects the escaped query — the `catch` branch of
`executeKeywordSearch`).  The trigram `MATCH` itself is modelled as
substring containment of the escaped query in one of the four indexed
columns, which is what a trigram-tokenized match of a plain query
amounts to. -/

/-- A row of the `fts_symbols` virtual table. -/
structure FtsRow where
  symbol_id : String
  name : String
  qualified_name : String
  content : String
  file_path : String
deriving DecidableEq

/-- Whether `q` occurs at the head of `s`. -/
def matchesAt (q s : List Char) : Bool :=
  match q, s with
  | [], _ => true
  | _ :: _, [] => false
  | a :: qs, b :: ss => a == b && matchesAt qs ss

/-- Whether `q` occurs as a contiguous run inside `s`. -/
def hasSub (q : List Char) : List Char → Bool
  | [] => matchesAt q []
  | b :: ss => matchesAt q (b :: ss) || hasSub q ss

/-- Substring containment on strings. -/
def strHasSub (q s : String) : Bool := hasSub q.data s.data

/-- Model of `fts_symbols MATCH ?` for the escaped query. -/
def rowMatchesFts (q : String) (r : FtsRow) : Bool :=
  strHasSub q r.name || strHasSub q r.qualified_name ||
    strHasSub q r.content || strHasSub q r.file_path

/-- `String.prototype.trim`, written on the character list (Lean's built-in
`String.trim` is byte-position based and is avoided so that concrete
instances evaluate in the kernel). -/
def trimChars (l : List Char) : List Char :=
  ((l.dropWhile Char.isWhitespace).reverse.dropWhile Char.isWhitespace).reverse

/-- `trim` on strings. -/
def trimStr (s : String) : String := String.mk (trimChars s.data)

/-- `escapeQueryForFts5`: `query.replace(/[*"()]/g, " ").trim()`. -/
def escapeQueryForFts5 (query : String) : String :=
  trimStr (String.mk (query.data.map
    (fun c => if c = '*' ∨ c = '"' ∨ c = '(' ∨ c = ')' then ' ' else c)))

/-- `executeKeywordSearch`: `SELECT ..., bm25(fts_symbols) as rank FROM
fts_symbols WHERE fts_symbols MATCH ? ORDER BY rank LIMIT ?`, with the
`try/catch` that turns an FTS5 syntax error into an empty result. -/
def executeKeywordSearch (ftsError : String → Bool) (bm25 : FtsRow → ℚ)
    (table : List FtsRow) (escapedQuery : String) (limit : ℕ) :
    List FtsRow :=
  if ftsError escapedQuery then []
  else
    letI : DecidableRel (fun a b : FtsRow => bm25 a ≤ bm25 b) :=
      fun a b => inferInstanceAs (Decidable (bm25 a ≤ bm25 b))
    (List.insertionSort (fun a b => bm25 a ≤ bm25 b)
      (table.filter (rowMatchesFts escapedQuery))).take limit

/-- `KeywordSearchMatch` of keyword-search.ts. -/
structure KeywordSearchMatch where
  symbolId : String
  name : String
  qualifiedName : String
  filePath : String
  bm25Rank : ℚ
  score : ℚ
deriving DecidableEq

/-- `String.prototype.toLowerCase` (ASCII model via `Char.toLower`). -/
def toLowerStr (s : String) : String := String.mk (s.data.map Char.toLower)

/-- `applyExactNameBoost`: negate the bm25 rank into a score and multiply
by the boost factor when the row's name equals the original query
case-insensitively. -/
def applyExactNameBoost (bm25 : FtsRow → ℚ) (results : List FtsRow)
    (originalQuery : String) (boostFactor : ℚ) : List KeywordSearchMatch :=
  let queryLower := toLowerStr originalQuery
  results.map (fun row =>
    let baseScore := -(bm25 row)
    let isExactNameMatch := toLowerStr row.name == queryLower
    let score := if isExactNameMatch then baseScore * boostFactor else baseScore
    ⟨row.symbol_id, row.name, row.qualified_name, row.file_path, bm25 row,
      score⟩)

/-- `sortByScoreDescending`: `sort((a, b) => b.score - a.score)` — a stable
sort placing higher scores first. -/
def sortByScoreDescending (results : List KeywordSearchMatch) :
    List KeywordSearchMatch :=
  letI : DecidableRel (fun a b : KeywordSearchMatch => b.score ≤ a.score) :=
    fun a b => inferInstanceAs (Decidable (b.score ≤ a.score))
  List.insertionSort (fun a b => b.score ≤ a.score) results

/-- `createKeywordSearcher(db).search(query, options)`. -/
def keywordSearch (ftsError : String → Bool) (bm25 : FtsRow → ℚ)
    (table : List FtsRow) (query : String) (limit : ℕ)
    (exactNameBoost : ℚ) : List KeywordSearchMatch :=
  let escapedQuery := escapeQueryForFts5 query
  if escapedQuery == "" then []
  else
    let rawResults := executeKeywordSearch ftsError bm25 table escapedQuery
      (limit * 2)
    if rawResults = [] then []
    else
      (sortByScoreDescending
        (applyExactNameBoost bm25 rawResults query exactNameBoost)).take limit

/-- `createKeywordStore(db).index(...)` inserts one `fts_symbols` row per
symbol with exactly these five columns; `ftsTableOf` is the FTS table of a
store whose `symbols` table holds `symbols`. -/
def ftsRowOfSymbol (s : SymbolRow) : FtsRow :=
  ⟨s.id, s.name, s.qualified_name, s.content, s.file_path⟩

/-- The `fts_symbols` table derived from the `symbols` table. -/
def ftsTableOf (symbols : List SymbolRow) : List FtsRow :=
  symbols.map ftsRowOfSymbol

/-- The keyword leg of `runParallelRetrieval` (part of the smart-query
orchestrator): `keywordSearcher.search(options.queryText, { limit:
RETRIEVAL_LIMIT })` — note that, unlike the vector leg, no branch is
passed (and `KeywordSearchOptions` has no branch field at all).
`RETRIEVAL_LIMIT = 20`, default `exactNameBoost = 2.0`. -/
def keywordLeg (ftsError : String → Bool) (bm25 : FtsRow → ℚ)
    (symbols : List SymbolRow) (queryText : String) :
    List KeywordSearchMatch :=
  keywordSearch ftsError bm25 (ftsTableOf symbols) queryText 20 2

end KeywordSearch

namespace VectorSearch

/-! ## Vector search (`query/vector-search.ts`, pure-JS fallback)

Embeddings are rational vectors (`deserializeEmbedding` already applied;
the corrupted-blob `catch` is not modelled).  `Math.sqrt` is a parameter
`sqrtFn : ℚ → ℚ`. -/

/-- `VectorSearchMatch` of vector-search.ts. -/
structure VectorSearchMatch where
  symbolId : String
  distance : ℚ
  similarity : ℚ
deriving DecidableEq

/-- A row of the `js_vectors` table, with the embedding deserialized. -/
structure JsVectorRow where
  symbol_id : String
  embedding : List ℚ
deriving DecidableEq

/-- `cosineSimilarity`: 0 on a length mismatch; 0 when the product of the
norms is 0; otherwise the normalized dot product. -/
def cosineSimilarity (sqrtFn : ℚ → ℚ) (a b : List ℚ) : ℚ :=
  if a.length ≠ b.length then 0
  else
    let dotProduct := (List.zipWith (fun x y => x * y) a b).sum
    let normA := (a.map (fun x => x * x)).sum
    let normB := (b.map (fun x => x * x)).sum
    let magnitude := sqrtFn normA * sqrtFn normB
    if magnitude = 0 then 0 else dotProduct / magnitude

/-- The row source of `searchWithPureJs`: with a branch,
`SELECT jv.symbol_id, jv.embedding FROM js_vectors jv INNER JOIN symbols s
ON s.id = jv.symbol_id WHERE s.branch = ?`; without, the whole table.
(`symbols.id` is the primary key, so the join keeps each vector row at
most once.) -/
def joinRowsForBranch (symbols : List SymbolRow) (jsVectors : List JsVectorRow)
    (branch : Option String) : List JsVectorRow :=
  match branch with
  | some b =>
    jsVectors.filter (fun jv =>
      symbols.any (fun s => s.id == jv.symbol_id && s.branch == b))
  | none => jsVectors

/-- `searchWithPureJs`: score every row, sort by similarity descending
(stable) and keep the top `limit`. -/
def searchWithPureJs (sqrtFn : ℚ → ℚ) (symbols : List SymbolRow)
    (jsVectors : List JsVectorRow) (queryEmbedding : List ℚ) (limit : ℕ)
    (branch : Option String) : List VectorSearchMatch :=
  let rows := joinRowsForBranch symbols jsVectors branch
  let results := rows.map (fun row =>
    let similarity := cosineSimilarity sqrtFn queryEmbedding row.embedding
    VectorSearchMatch.mk row.symbol_id (1 - similarity) similarity)
  letI : DecidableRel (fun a b : VectorSearchMatch => b.similarity ≤ a.similarity) :=
    fun a b => inferInstanceAs (Decidable (b.similarity ≤ a.similarity))
  (List.insertionSort (fun a b => b.similarity ≤ a.similarity) results).take
    limit

end VectorSearch

namespace RrfFusion

/-! ## RRF fusion (`query/rrf-fusion.ts`) -/

/-- `RankedItem` (rank is 1-indexed; `source` is "vector" or "keyword"). -/
structure RankedItem where
  symbolId : String
  rank : ℕ
  source : String
deriving DecidableEq

/-- `FusedResult` (`sourceRanks` flattened into two options). -/
structure FusedResult where
  symbolId : String
  rrfScore : ℚ
  vectorRank : Option ℕ
  keywordRank : Option ℕ
deriving DecidableEq

/-- `assignRanks`: `results.map((result, index) => ... rank: index + 1)`,
written with an explicit running index. -/
def assignRanksAux (source : String) : List String → ℕ → List RankedItem
  | [], _ => []
  | a :: t, i => ⟨a, i + 1, source⟩ :: assignRanksAux source t (i + 1)

/-- `assignRanks` starting at index 0. -/
def assignRanks (results : List String) (source : String) : List RankedItem :=
  assignRanksAux source results 0

/-- Current score of a symbol in the score map
(`scoreMap.get(id) ?? 0`). -/
def scoreOf (m : List (String × ℚ)) (id : String) : ℚ :=
  ((jsMapGet m id).getD 0)

/-- One step of `computeRrfScores`: add `1 / (k + rank)` to the symbol's
entry. -/
def addRrf (k : ℚ) (m : List (String × ℚ)) (item : RankedItem) :
    List (String × ℚ) :=
  jsMapSet m item.symbolId (scoreOf m item.symbolId + 1 / (k + (item.rank : ℚ)))

/-- `computeRrfScores`: fold the vector contributions, then the keyword
contributions, into a `Map<string, number>`. -/
def computeRrfScores (vectorRanked keywordRanked : List RankedItem) (k : ℚ) :
    List (String × ℚ) :=
  (vectorRanked ++ keywordRanked).foldl (addRrf k) []

/-- `new Map(ranked.map(item => [item.symbolId, item.rank])).get(id)`:
with duplicate keys the last entry wins. -/
def lookupRank (ranked : List RankedItem) (id : String) : Option ℕ :=
  (ranked.reverse.find? (fun i => i.symbolId == id)).map RankedItem.rank

/-- `buildFusedResults`: one `FusedResult` per score-map entry, in map
insertion order. -/
def buildFusedResults (scoreMap : List (String × ℚ))
    (vectorRanked keywordRanked : List RankedItem) : List FusedResult :=
  scoreMap.map (fun p =>
    ⟨p.1, p.2, lookupRank vectorRanked p.1, lookupRank keywordRanked p.1⟩)

/-- `sortByRrfScoreDescending`: stable sort, higher `rrfScore` first. -/
def sortByRrfScoreDescending (results : List FusedResult) : List FusedResult :=
  letI : DecidableRel (fun a b : FusedResult => b.rrfScore ≤ a.rrfScore) :=
    fun a b => inferInstanceAs (Decidable (b.rrfScore ≤ a.rrfScore))
  List.insertionSort (fun a b => b.rrfScore ≤ a.rrfScore) results

/-- `fuseWithRrf` with the default `k = 60` (the smart-query orchestrator
calls it without options).  Inputs are the symbol-id lists of the two
retrieval legs. -/
def fuseWithRrf (vectorResults keywordResults : List String) :
    List FusedResult :=
  if vectorResults = [] ∧ keywordResults = [] then []
  else
    let k : ℚ := 60
    let vectorRanked := assignRanks vectorResults "vector"
    let keywordRanked := assignRanks keywordResults "keyword"
    let scoreMap := computeRrfScores vectorRanked keywordRanked k
    sortByRrfScoreDescending
      (buildFusedResults scoreMap vectorRanked keywordRanked)

/-- The fused score the specification assigns to a symbol for one
contributing list: `1 / (60 + rank)` with `rank` the 1-indexed position,
`0` if the symbol is not in the list.  (Spec-side expression used to state
the claim.) -/
def specContribution (l : List String) (d : String) : ℚ :=
  if d ∈ l then 1 / (60 + (l.indexOf d : ℚ) + 1) else 0

end RrfFusion

namespace ContextBudget

/-! ## Token-budget packing (`buildContextWithinBudget` of the smart-query
orchestrator).  `CHARS_PER_TOKEN = 4`. -/

/-- `formatSymbolContext`: header, location, optional signature and
docstring, fenced source, joined with newlines. -/
def formatSymbolContext (symbol : SymbolRow) : String :=
  let parts : List String :=
    ["## " ++ symbol.type ++ ": " ++ symbol.qualified_name,
     "File: " ++ symbol.file_path ++ ":" ++ toString symbol.start_line ++
       "-" ++ toString symbol.end_line]
    ++ (match symbol.signature with
        | some sig => ["Signature: " ++ sig]
        | none => [])
    ++ (match symbol.docstring with
        | some d => ["\nDocumentation:\n" ++ d]
        | none => [])
    ++ ["\nSource:\n```" ++ symbol.language ++ "\n" ++ symbol.content ++
        "\n```"]
  String.intercalate "\n" parts

/-- `estimateTokens`: `Math.ceil(text.length / 4)`. -/
def estimateTokens (text : String) : ℕ := (text.length + 3) / 4

/-- `truncateToTokens`: keep the text if it fits in `maxTokens * 4`
characters, else `slice(0, maxChars - 3) + "..."`. -/
def truncateToTokens (text : String) (maxTokens : ℕ) : String :=
  let maxChars := maxTokens * 4
  if text.length ≤ maxChars then text
  else String.mk (text.data.take (maxChars - 3)) ++ "..."

/-- The loop of `buildContextWithinBudget`, carrying `currentTokens` and
returning `(includedSymbols, contextParts, currentTokens)`.  When the next
full block would exceed the budget: if strictly more than 100 tokens
remain, a truncated block is emitted; either way the loop breaks. -/
def buildLoop (maxTokens : ℕ) : List SymbolRow → ℕ →
    List SymbolRow × List String × ℕ
  | [], currentTokens => ([], [], currentTokens)
  | symbol :: rest, currentTokens =>
    let symbolContext := formatSymbolContext symbol
    let symbolTokens := estimateTokens symbolContext
    if currentTokens + symbolTokens > maxTokens then
      let remainingTokens := maxTokens - currentTokens
      if remainingTokens > 100 then
        let truncatedContext := truncateToTokens symbolContext remainingTokens
        ([symbol], [truncatedContext],
          currentTokens + estimateTokens truncatedContext)
      else ([], [], currentTokens)
    else
      let r := buildLoop maxTokens rest (currentTokens + symbolTokens)
      (symbol :: r.1, symbolContext :: r.2.1, r.2.2)

/-- `ContextResult` of the orchestrator. -/
structure ContextResult where
  symbols : List SymbolRow
  context : String
  tokenCount : ℕ
deriving DecidableEq

/-- `buildContextWithinBudget`. -/
def buildContextWithinBudget (symbols : List SymbolRow) (maxTokens : ℕ) :
    ContextResult :=
  let r := buildLoop maxTokens symbols 0
  ⟨r.1, String.intercalate "\n\n---\n\n" r.2.1, r.2.2⟩

/-- Token estimate of one symbol's formatted block. -/
def blockTokens (s : SymbolRow) : ℕ := estimateTokens (formatSymbolContext s)

/-- Total token estimate of a list of blocks. -/
def sumTokens (l : List SymbolRow) : ℕ := (l.map blockTokens).sum

end ContextBudget

namespace BranchDiff

/-! ## Branch diff (`query/branch-diff.ts`).  The store is the `symbols`
table; each prepared statement becomes a list comprehension. -/

/-- `addedSymbolsStmt`: symbols on `sourceBranch` whose `qualified_name`
has no row on `targetBranch`, `LIMIT ?`. -/
def addedSymbols (store : List SymbolRow) (sourceBranch targetBranch : String)
    (limit : ℕ) : List SymbolRow :=
  (store.filter (fun s =>
    s.branch == sourceBranch &&
      !(store.any (fun t =>
        t.branch == targetBranch &&
          t.qualified_name == s.qualified_name)))).take limit

/-- `removedSymbolsStmt` as invoked by `diff`: the same query with the two
branches swapped. -/
def removedSymbols (store : List SymbolRow) (sourceBranch targetBranch : String)
    (limit : ℕ) : List SymbolRow :=
  addedSymbols store targetBranch sourceBranch limit

/-- `modifiedSymbolsStmt`: the `qualified_name` join of source-branch and
target-branch rows with differing `content_hash`, `LIMIT ?`. -/
def modifiedPairs (store : List SymbolRow) (sourceBranch targetBranch : String)
    (limit : ℕ) : List (SymbolRow × SymbolRow) :=
  (store.flatMap (fun s =>
    if s.branch == sourceBranch then
      (store.filter (fun t =>
        t.branch == targetBranch &&
          t.qualified_name == s.qualified_name &&
          !(s.content_hash == t.content_hash))).map (fun t => (s, t))
    else [])).take limit

/-- The first arm of `affectedFilesStmt`: file paths of branch `a` with no
symbol row of branch `b` in the same file. -/
def filesOnlyIn (store : List SymbolRow) (a b : String) : List String :=
  (store.filter (fun s =>
    s.branch == a &&
      !(store.any (fun t => t.branch == b && t.file_path == s.file_path)))).map
    SymbolRow.file_path

/-- The third arm of `affectedFilesStmt`: source file paths of the
modified-symbol join (no limit in this statement). -/
def modifiedFiles (store : List SymbolRow) (sourceBranch targetBranch : String) :
    List String :=
  store.flatMap (fun s =>
    if s.branch == sourceBranch then
      (store.filter (fun t =>
        t.branch == targetBranch &&
          t.qualified_name == s.qualified_name &&
          !(s.content_hash == t.content_hash))).map (fun _ => s.file_path)
    else [])

/-- `affectedFilesStmt`: `SELECT DISTINCT file_path FROM (arm1 UNION arm2
UNION arm3) ORDER BY file_path` — the deduplicated union of the three
arms, sorted by path. -/
def affectedFiles (store : List SymbolRow) (sourceBranch targetBranch : String) :
    List String :=
  letI : DecidableRel (fun a b : String => a ≤ b) :=
    fun a b => inferInstanceAs (Decidable (a ≤ b))
  List.insertionSort (fun a b => a ≤ b)
    ((filesOnlyIn store sourceBranch targetBranch ++
      filesOnlyIn store targetBranch sourceBranch ++
      modifiedFiles store sourceBranch targetBranch).dedup)

end BranchDiff

namespace ImpactAnalysis

/-! ## Impact analysis (`query/impact-analysis.ts`) -/

/-- `RiskLevel`. -/
inductive Risk where
  | low
  | medium
  | high
  | critical
deriving DecidableEq

/-- `calculateRiskLevel` with `RISK_LOW_MAX = 3`, `RISK_MEDIUM_MAX = 10`,
`RISK_HIGH_MAX = 25`. -/
def calculateRiskLevel (dependentCount : ℕ) : Risk :=
  if dependentCount ≤ 3 then .low
  else if dependentCount ≤ 10 then .medium
  else if dependentCount ≤ 25 then .high
  else .critical

/-- `determineConfidence` of impact-analysis.ts. -/
def determineConfidence (hasStaleData hasIncompleteData : Bool) : String :=
  if hasStaleData then "degraded"
  else if hasIncompleteData then "medium"
  else "high"

/-- `symbolStore.getById`: first `symbols` row with the id
(`id` is the primary key). -/
def getById (symbols : List SymbolRow) (id : String) : Option SymbolRow :=
  symbols.find? (fun s => s.id == id)

/-- `edgeStore.getCallers`:
`SELECT * FROM edges WHERE target_id = ? AND branch = ? AND
type = 'CALLS'`. -/
def getCallers (edges : List EdgeRow) (symbolId branch : String) :
    List EdgeRow :=
  edges.filter (fun e =>
    e.target_id == symbolId && e.branch == branch && e.type == "CALLS")

/-- Parsed `ImpactAnalysisOptions` (defaults applied:
`confidenceThreshold = 0.5`, `maxDepth = 10`). -/
structure ImpactOptions where
  branch : String
  confidenceThreshold : ℚ
  maxDepth : ℕ
deriving DecidableEq

/-- An entry of `affectedSymbols`. -/
structure AffectedEntry where
  symbol : SymbolRow
  path : List String
  depth : ℕ
deriving DecidableEq

/-- A BFS queue entry. -/
structure QueueEntry where
  symbolId : String
  depth : ℕ
  path : List String
deriving DecidableEq

/-- The mutable accumulator of `findTransitiveDependents`
(`hasIncompleteData` is the source's `hasPartialData`). -/
structure BfsAccum where
  directDependents : ℕ
  affectedSymbols : List AffectedEntry
  hasIncompleteData : Bool
  hasStaleData : Bool
deriving DecidableEq

/-- The `for (const edge of validEdges)` body: skip visited sources, mark
incomplete data when the caller symbol is missing, flag stale data, count
depth-1 dependents, record the affected symbol and push it on the queue.
Returns the updated visited set, the queue entries pushed (in order) and
the accumulator.  (The source also fills a `symbolPaths` map that nothing
reads; it is omitted.) -/
def processEdges (symbols : List SymbolRow) (cur : QueueEntry) :
    List EdgeRow → List String → BfsAccum →
    List String × List QueueEntry × BfsAccum
  | [], visited, acc => (visited, [], acc)
  | e :: es, visited, acc =>
    if visited.contains e.source_id then
      processEdges symbols cur es visited acc
    else
      let visited2 := e.source_id :: visited
      match getById symbols e.source_id with
      | none =>
        processEdges symbols cur es visited2
          { acc with hasIncompleteData := true }
      | some callerSymbol =>
        let acc1 :=
          if callerSymbol.updated_at > e.updated_at then
            { acc with hasStaleData := true }
          else acc
        let nextDepth := cur.depth + 1
        let nextPath := cur.path ++ [callerSymbol.qualified_name]
        let acc2 :=
          if nextDepth = 1 then
            { acc1 with directDependents := acc1.directDependents + 1 }
          else acc1
        let acc3 :=
          { acc2 with
            affectedSymbols :=
              acc2.affectedSymbols ++ [⟨callerSymbol, nextPath, nextDepth⟩] }
        let r := processEdges symbols cur es visited2 acc3
        (r.1, QueueEntry.mk callerSymbol.id nextDepth nextPath :: r.2.1, r.2.2)

/-- The `while (queue.length > 0)` loop of `findTransitiveDependents` as a
fuel recursion.  One unit of fuel is spent per dequeued entry; every entry
ever enqueued past the root corresponds to a distinct, freshly visited id
of the `symbols` table, so `symbols.length + 1` units suffice and the fuel
never runs out at the call site below. -/
def bfsLoop (symbols : List SymbolRow) (edges : List EdgeRow)
    (opts : ImpactOptions) :
    ℕ → List QueueEntry → List String → BfsAccum → BfsAccum
  | 0, _, _, acc => acc
  | _ + 1, [], _, acc => acc
  | fuel + 1, cur :: rest, visited, acc =>
    if cur.depth ≥ opts.maxDepth then
      bfsLoop symbols edges opts fuel rest visited
        { acc with hasIncompleteData := true }
    else
      let callerEdges := getCallers edges cur.symbolId opts.branch
      let validEdges :=
        callerEdges.filter (fun e => e.confidence ≥ opts.confidenceThreshold)
      let r := processEdges symbols cur validEdges visited acc
      bfsLoop symbols edges opts fuel (rest ++ r.2.1) r.1 r.2.2

/-- `findTransitiveDependents`: callers-only BFS from the root symbol. -/
def findTransitiveDependents (symbols : List SymbolRow) (edges : List EdgeRow)
    (rootSymbol : SymbolRow) (opts : ImpactOptions) : BfsAccum :=
  bfsLoop symbols edges opts (symbols.length + 1)
    [⟨rootSymbol.id, 0, [rootSymbol.qualified_name]⟩] [rootSymbol.id]
    ⟨0, [], false, false⟩

/-- `ImpactAnalysis` result (the fields the claims concern). -/
structure ImpactResult where
  symbol : SymbolRow
  risk : Risk
  directDependents : ℕ
  transitiveDependents : ℕ
  affectedSymbols : List AffectedEntry
  confidence : String
deriving DecidableEq

/-- `createImpactAnalyzer(...).analyzeImpact`: `null` for a missing root
symbol; otherwise the BFS result with
`risk = calculateRiskLevel(affectedSymbols.length)`. -/
def analyzeImpact (symbols : List SymbolRow) (edges : List EdgeRow)
    (symbolId : String) (opts : ImpactOptions) : Option ImpactResult :=
  (getById symbols symbolId).map (fun rootSymbol =>
    let res := findTransitiveDependents symbols edges rootSymbol opts
    let transitiveDependents := res.affectedSymbols.length
    { symbol := rootSymbol
      risk := calculateRiskLevel transitiveDependents
      directDependents := res.directDependents
      transitiveDependents := transitiveDependents
      affectedSymbols := res.affectedSymbols
      confidence := determineConfidence res.hasStaleData res.hasIncompleteData })

end ImpactAnalysis

/-! ## Concrete fixtures used by witnesses and counterexamples -/

/-- A symbol fixture. -/
def mkSym (i n b : String) : SymbolRow :=
  ⟨i, n, "m:" ++ n, "FUNCTION", "ts", "m.ts", 1, 2, "c", none, none, "h",
    false, b, 0, 0⟩

/-- Branch-`main` symbol, name not matching the test query. -/
def symAlpha : SymbolRow :=
  ⟨"s0", "alpha", "f.ts:alpha", "FUNCTION", "ts", "f.ts", 1, 2, "body", none,
    none, "h0", false, "main", 0, 0⟩

/-- Branch-`feature` symbol whose name contains the test query. -/
def symQuux : SymbolRow :=
  ⟨"s1", "quux1", "f.ts:quux1", "FUNCTION", "ts", "f.ts", 1, 2, "body", none,
    none, "h1", false, "feature", 0, 0⟩

/-- Branch-diff fixture: `f.ts` exists on both branches; the source branch
adds a second symbol `new` in it and nothing is modified. -/
def diffStore : List SymbolRow :=
  [⟨"d1", "old", "f.ts:old", "FUNCTION", "ts", "f.ts", 1, 2, "a", none, none,
      "h", false, "feature", 0, 0⟩,
   ⟨"d2", "new", "f.ts:new", "FUNCTION", "ts", "f.ts", 3, 4, "b", none, none,
      "g", false, "feature", 0, 0⟩,
   ⟨"d3", "old", "f.ts:old", "FUNCTION", "ts", "f.ts", 1, 2, "a", none, none,
      "h", false, "main", 0, 0⟩]

/-- A file record on the given branch. -/
def fileRec (b : String) : FileStore.FileRecord :=
  ⟨"a.ts", "h", 0, 1, 0, "ts", b, "indexed", 0, none, none⟩

/-- Context-budget fixture whose formatted block is 119 tokens. -/
def budgetSym : SymbolRow :=
  ⟨"s", "f", "f.ts:f", "FUNCTION", "ts", "f.ts", 1, 2,
    String.mk (List.replicate 420 'a'), none, none, "h", false, "main", 0, 0⟩

/-- Context-budget fixture whose formatted block is 139 tokens. -/
def budgetSymBig : SymbolRow :=
  ⟨"s", "f", "f.ts:f", "FUNCTION", "ts", "f.ts", 1, 2,
    String.mk (List.replicate 500 'a'), none, none, "h", false, "main", 0, 0⟩

/-- Impact fixture: `parseConfig` plus 12 direct callers. -/
def impactSymbols : List SymbolRow :=
  mkSym "r" "parseConfig" "main" ::
    (List.range 12).map (fun i =>
      mkSym ("c" ++ toString i) ("caller" ++ toString i) "main")

/-- Impact fixture: one `CALLS` edge per caller, confidence 1. -/
def impactEdges : List EdgeRow :=
  (List.range 12).map (fun i =>
    ⟨"e" ++ toString i, "c" ++ toString i, "r", "CALLS", 1, "lsp", "main", 0⟩)

/-- Impact fixture options (defaults, with an integral threshold so that
concrete runs evaluate in the kernel). -/
def impactOpts : ImpactAnalysis.ImpactOptions := ⟨"main", 1, 10⟩

/-- Vector-search fixture: a stored embedding of dimension 2. -/
def jvRowDim2 : VectorSearch.JsVectorRow := ⟨"v1", [1, 2]⟩

/-- Vector-search fixture: a zero-dimensional stored embedding, paired with
a `main`-branch symbol row for the branch-filtered query. -/
def jvRowDim0 : VectorSearch.JsVectorRow := ⟨"s0", []⟩


theorem jsMapGet_cons {κ ν : Type} [DecidableEq κ]
    (q : κ × ν) (t : List (κ × ν)) (k2 : κ) :
    jsMapGet (q :: t) k2 = if q.1 = k2 then some q.2 else jsMapGet t k2 := by
  by_cases h : q.1 = k2
  · simp [jsMapGet, List.find?_cons_of_pos, h]
  · simp [jsMapGet, List.find?_cons_of_neg, h]

theorem jsMapSet_cons {κ ν : Type} [DecidableEq κ]
    (p : κ × ν) (t : List (κ × ν)) (k : κ) (v : ν) :
    jsMapSet (p :: t) k v =
      if p.1 = k then
        (k, v) :: t.map (fun q => if q.1 = k then (k, v) else q)
      else p :: jsMapSet t k v := by
  by_cases hp : p.1 = k
  · simp [jsMapSet, hp]
  · by_cases ht : t.any (fun q => decide (q.1 = k)) <;>
      simp [jsMapSet, hp, ht, List.any_cons]

theorem jsMapGet_map_other {κ ν : Type} [DecidableEq κ]
    (t : List (κ × ν)) (k k2 : κ) (v : ν) (hne : k2 ≠ k) :
    jsMapGet (t.map (fun q => if q.1 = k then (k, v) else q)) k2 =
      jsMapGet t k2 := by
  induction t with
  | nil => rfl
  | cons q t ih =>
    have h1 : ¬ (k = k2) := fun h => hne h.symm
    by_cases hq : q.1 = k
    · have h2 : ¬ (q.1 = k2) := by rw [hq]; exact h1
      rw [List.map_cons, if_pos hq, jsMapGet_cons, jsMapGet_cons,
        if_neg h2, ih]
      exact if_neg h1
    · rw [List.map_cons, if_neg hq, jsMapGet_cons, jsMapGet_cons, ih]

theorem jsMapGet_set_self {κ ν : Type} [DecidableEq κ]
    (m : List (κ × ν)) (k : κ) (v : ν) :
    jsMapGet (jsMapSet m k v) k = some v := by
  induction m with
  | nil => simp [jsMapSet, jsMapGet]
  | cons p t ih =>
    rw [jsMapSet_cons]
    by_cases hp : p.1 = k
    · rw [if_pos hp, jsMapGet_cons]
      exact if_pos rfl
    · rw [if_neg hp, jsMapGet_cons, if_neg hp]
      exact ih

theorem jsMapGet_set_other {κ ν : Type} [DecidableEq κ]
    (m : List (κ × ν)) (k k2 : κ) (v : ν) (hne : k2 ≠ k) :
    jsMapGet (jsMapSet m k v) k2 = jsMapGet m k2 := by
  induction m with
  | nil =>
    simp [jsMapSet, jsMapGet, List.find?, Ne.symm hne]
  | cons p t ih =>
    rw [jsMapSet_cons, jsMapGet_cons]
    by_cases hp : p.1 = k
    · have h1 : ¬ (k = k2) := fun h => hne h.symm
      have h2 : ¬ (p.1 = k2) := by rw [hp]; exact h1
      rw [if_pos hp, jsMapGet_cons, if_neg h2,
        jsMapGet_map_other t k k2 v hne]
      exact if_neg h1
    · rw [if_neg hp, jsMapGet_cons, ih]

theorem mem_jsMapSet {κ ν : Type} [DecidableEq κ]
    {m : List (κ × ν)} {k : κ} {v : ν} {p : κ × ν}
    (hmem : p ∈ jsMapSet m k v) :
    p = (k, v) ∨ (p ∈ m ∧ p.1 ≠ k) := by
  unfold jsMapSet at hmem
  split at hmem
  case isTrue hany =>
    rcases List.mem_map.mp hmem with ⟨q, hq, hqe⟩
    by_cases hqk : q.1 = k
    · left
      rw [← hqe, if_pos hqk]
    · right
      rw [← hqe, if_neg hqk]
      exact ⟨hq, hqk⟩
  case isFalse hany =>
    rcases List.mem_append.mp hmem with h | h
    · right
      refine ⟨h, fun hk => hany ?_⟩
      exact List.any_eq_true.mpr ⟨p, h, by simp [hk]⟩
    · left
      simpa using h


namespace MerkleCache

theorem hashFile_fst_get {π : Type} [DecidableEq π] (hashC : String → String)
    (fs : π → Option FileStat) (st : CacheState π) (fp : π) (h : String)
    (hh : (hashFile hashC fs st fp).1 = some h) :
    ∃ c, jsMapGet (hashFile hashC fs st fp).2 fp = some c ∧ c.hash = h := by
  cases hfs : fs fp with
  | none =>
    simp only [hashFile, hfs] at hh
    exact absurd hh (by simp)
  | some f =>
    cases hget : jsMapGet st fp with
    | some cached =>
      by_cases hfast : cached.mtime = f.mtime ∧ cached.size = f.size
      · simp only [hashFile, hfs, hget, if_pos hfast] at hh ⊢
        refine ⟨cached, rfl, ?_⟩
        simpa using hh
      · simp only [hashFile, hfs, hget, if_neg hfast] at hh ⊢
        refine ⟨⟨hashC f.content, f.mtime, f.size⟩, ?_, ?_⟩
        · exact jsMapGet_set_self st fp _
        · simpa using hh
    | none =>
      simp only [hashFile, hfs, hget] at hh ⊢
      refine ⟨⟨hashC f.content, f.mtime, f.size⟩, ?_, ?_⟩
      · exact jsMapGet_set_self st fp _
      · simpa using hh

theorem hashFile_get_other {π : Type} [DecidableEq π] (hashC : String → String)
    (fs : π → Option FileStat) (st : CacheState π) (fp k : π) (hne : k ≠ fp) :
    jsMapGet (hashFile hashC fs st fp).2 k = jsMapGet st k := by
  cases hfs : fs fp with
  | none => simp only [hashFile, hfs]
  | some f =>
    cases hget : jsMapGet st fp with
    | some cached =>
      by_cases hfast : cached.mtime = f.mtime ∧ cached.size = f.size
      · simp only [hashFile, hfs, hget, if_pos hfast]
      · simp only [hashFile, hfs, hget, if_neg hfast]
        exact jsMapGet_set_other st fp k _ hne
    | none =>
      simp only [hashFile, hfs, hget]
      exact jsMapGet_set_other st fp k _ hne

theorem hashFilesAux_consistent {π : Type} [DecidableEq π]
    (hashC : String → String) (fs : π → Option FileStat) :
    ∀ (fps : List π) (start : List (π × Option String) × CacheState π),
    (∀ p ∈ start.1, ∀ h, p.2 = some h →
      ∃ c, jsMapGet start.2 p.1 = some c ∧ c.hash = h) →
    ∀ p ∈ (fps.foldl
        (fun acc fp =>
          let r := hashFile hashC fs acc.2 fp
          (jsMapSet acc.1 fp r.1, r.2)) start).1,
      ∀ h, p.2 = some h →
        ∃ c, jsMapGet (fps.foldl
          (fun acc fp =>
            let r := hashFile hashC fs acc.2 fp
            (jsMapSet acc.1 fp r.1, r.2)) start).2 p.1 = some c ∧ c.hash = h
  | [], start, hstart => by simpa using hstart
  | fp :: rest, start, hstart => by
    rw [List.foldl_cons]
    apply hashFilesAux_consistent hashC fs rest
    intro p hp h hph
    rcases mem_jsMapSet hp with hnew | ⟨hold, hnek⟩
    · subst hnew
      simp only at hph
      exact hashFile_fst_get hashC fs start.2 fp h hph
    · rcases hstart p hold h hph with ⟨c, hc, hch⟩
      refine ⟨c, ?_, hch⟩
      simp only
      rw [hashFile_get_other hashC fs start.2 fp p.1 hnek]
      exact hc

end MerkleCache

namespace MerkleCache

theorem changed_foldl {π : Type} [DecidableEq π] (st2 : CacheState π) :
    ∀ (hlist : List (π × Option String)),
    (∀ p ∈ hlist, ∀ h, p.2 = some h →
      ∃ c, jsMapGet st2 p.1 = some c ∧ c.hash = h) →
    ∀ r0 : ChangedFiles π,
      (hlist.foldl
        (fun (r : ChangedFiles π) p =>
          match p.2 with
          | none => r
          | some h =>
            match jsMapGet st2 p.1 with
            | none => { r with added := r.added ++ [p.1] }
            | some cached =>
              if cached.hash ≠ h then
                { r with modified := r.modified ++ [p.1] }
              else { r with unchanged := r.unchanged ++ [p.1] }) r0).added =
        r0.added ∧
      (hlist.foldl
        (fun (r : ChangedFiles π) p =>
          match p.2 with
          | none => r
          | some h =>
            match jsMapGet st2 p.1 with
            | none => { r with added := r.added ++ [p.1] }
            | some cached =>
              if cached.hash ≠ h then
                { r with modified := r.modified ++ [p.1] }
              else { r with unchanged := r.unchanged ++ [p.1] }) r0).modified =
        r0.modified
  | [], hinv, r0 => by simp
  | p :: rest, hinv, r0 => by
    rw [List.foldl_cons]
    have htail := fun q hq => hinv q (List.mem_cons_of_mem p hq)
    cases hp2 : p.2 with
    | none =>
      simpa only [hp2] using changed_foldl st2 rest htail r0
    | some h =>
      rcases hinv p (List.mem_cons_self p rest) h hp2 with ⟨c, hc, hch⟩
      have : ¬ (c.hash ≠ h) := by simp [hch]
      simpa only [hp2, hc, if_neg this] using
        changed_foldl st2 rest htail _

/-- Claim C1 (code bug): for every hash function, filesystem, prior cache
state and file list, `findChangedFiles` returns empty `added` and empty
`modified` — because `hashFiles` has already updated the cache before the
comparison loop reads it, every readable file compares equal to its own
freshly stored hash. -/
theorem findChangedFiles_added_modified_empty {π : Type} [DecidableEq π]
    (hashC : String → String) (fs : π → Option FileStat) (st : CacheState π)
    (filePaths : List π) :
    (findChangedFiles hashC fs st filePaths).1.added = [] ∧
      (findChangedFiles hashC fs st filePaths).1.modified = [] := by
  have hinv := hashFilesAux_consistent hashC fs filePaths ([], st)
    (by intro p hp; simp at hp)
  unfold findChangedFiles
  have := changed_foldl (hashFiles hashC fs st filePaths).2
    (hashFiles hashC fs st filePaths).1 (by
      intro p hp h hph
      exact hinv p (by simpa [hashFiles] using hp) h hph) ⟨[], [], []⟩
  constructor
  · simpa [hashFiles] using this.1
  · simpa [hashFiles] using this.2

end MerkleCache

namespace MerkleCache

/-- Claim C8: `buildTree` is deterministic — two caches holding the same
set of `(path, record)` entries (in any insertion order, paths distinct)
produce the same root hash. -/
theorem buildTree_deterministic {π : Type} [LinearOrder π]
    (hashC : String → String) (e1 e2 : CacheState π) (hperm : e1.Perm e2)
    (hnodup : (e1.map Prod.fst).Nodup) :
    buildTree hashC e1 = buildTree hashC e2 := by
  haveI : IsTotal (π × FileHashRecord) (fun a b => a.1 ≤ b.1) :=
    ⟨fun a b => le_total a.1 b.1⟩
  haveI : IsTrans (π × FileHashRecord) (fun a b => a.1 ≤ b.1) :=
    ⟨fun _ _ _ hab hbc => le_trans hab hbc⟩
  haveI : IsAntisymm (π × FileHashRecord) (fun a b => a.1 < b.1) :=
    ⟨fun _ _ h1 h2 => absurd (lt_trans h1 h2) (lt_irrefl _)⟩
  suffices h : List.insertionSort (fun a b : π × FileHashRecord => a.1 ≤ b.1) e1 =
      List.insertionSort (fun a b : π × FileHashRecord => a.1 ≤ b.1) e2 by
    unfold buildTree
    rw [h]
  have hp1 := List.perm_insertionSort
    (fun a b : π × FileHashRecord => a.1 ≤ b.1) e1
  have hp2 := List.perm_insertionSort
    (fun a b : π × FileHashRecord => a.1 ≤ b.1) e2
  have hperm12 := (hp1.trans hperm).trans hp2.symm
  have hs1 := List.sorted_insertionSort
    (fun a b : π × FileHashRecord => a.1 ≤ b.1) e1
  have hs2 := List.sorted_insertionSort
    (fun a b : π × FileHashRecord => a.1 ≤ b.1) e2
  have hn1 : ((List.insertionSort
      (fun a b : π × FileHashRecord => a.1 ≤ b.1) e1).map Prod.fst).Nodup :=
    hnodup.perm (hp1.map Prod.fst).symm
  have hn2 : ((List.insertionSort
      (fun a b : π × FileHashRecord => a.1 ≤ b.1) e2).map Prod.fst).Nodup :=
    (hnodup.perm (hperm.map Prod.fst)).perm (hp2.map Prod.fst).symm
  have hlt1 : (List.insertionSort
      (fun a b : π × FileHashRecord => a.1 ≤ b.1) e1).Pairwise
      (fun a b => a.1 < b.1) :=
    (hs1.and (List.pairwise_map.mp hn1)).imp
      (fun hab => lt_of_le_of_ne hab.1 hab.2)
  have hlt2 : (List.insertionSort
      (fun a b : π × FileHashRecord => a.1 ≤ b.1) e2).Pairwise
      (fun a b => a.1 < b.1) :=
    (hs2.and (List.pairwise_map.mp hn2)).imp
      (fun hab => lt_of_le_of_ne hab.1 hab.2)
  exact List.eq_of_perm_of_sorted hperm12 hlt1 hlt2

end MerkleCache

/-- Witness for C8 at a concrete input: the same two entries inserted in
both orders give the same root. -/
theorem buildTree_deterministic_witness :
    MerkleCache.buildTree (π := ℕ) id
        [(1, ⟨"ha", 0, 1⟩), (2, ⟨"hb", 0, 1⟩)] =
      MerkleCache.buildTree (π := ℕ) id
        [(2, ⟨"hb", 0, 1⟩), (1, ⟨"ha", 0, 1⟩)] :=
  MerkleCache.buildTree_deterministic id _ _ (List.Perm.swap _ _ _) (by decide)

namespace FileStore

/-- Claim C4 (code bug): `files` rows are keyed by `file_path` alone, so
upserting the same path on a second branch replaces the first branch's
row: the first branch's record is gone and only the second remains. -/
theorem upsert_second_branch_overwrites (t : List FileRecord)
    (f1 f2 : FileRecord) (hpath : f1.file_path = f2.file_path)
    (hbr : f1.branch ≠ f2.branch) :
    getByPath (upsert (upsert t f1) f2) f1.file_path f1.branch = none ∧
      getByPath (upsert (upsert t f1) f2) f2.file_path f2.branch = some f2 := by
  have hmem : ∀ r ∈ upsert (upsert t f1) f2,
      r = f2 ∨ (r.file_path == f2.file_path) = false := by
    intro r hr
    rcases List.mem_append.mp hr with h | h
    · right
      simpa using (List.mem_filter.mp h).2
    · left
      simpa using h
  constructor
  · unfold getByPath
    have hnil : (upsert (upsert t f1) f2).filter
        (fun r => r.file_path == f1.file_path && r.branch == f1.branch) = [] := by
      rw [List.filter_eq_nil_iff]
      intro r hr
      rcases hmem r hr with h | h
      · subst h
        simp only [Bool.and_eq_true, beq_iff_eq, not_and]
        intro _ hb
        exact hbr hb.symm
      · simp only [beq_eq_false_iff_ne, ne_eq] at h
        simp only [Bool.and_eq_true, beq_iff_eq, not_and]
        intro hp
        rw [hpath] at hp
        exact absurd hp h
    rw [hnil]
    rfl
  · unfold getByPath
    conv_lhs => rw [show upsert (upsert t f1) f2 =
      List.filter (fun r => !(r.file_path == f2.file_path)) (upsert t f1) ++
        [f2] from rfl]
    rw [List.filter_append]
    have hnil : (List.filter
        (fun r => r.file_path == f2.file_path && r.branch == f2.branch)
        (List.filter (fun r => !(r.file_path == f2.file_path))
          (upsert t f1))) = [] := by
      rw [List.filter_eq_nil_iff]
      intro r hr
      have hne := (List.mem_filter.mp hr).2
      simp only [Bool.not_eq_true', beq_eq_false_iff_ne, ne_eq] at hne
      simp only [Bool.and_eq_true, beq_iff_eq, not_and]
      intro hp
      exact absurd hp hne
    rw [hnil]
    simp

end FileStore

namespace KeywordSearch

theorem mem_trimChars {c : Char} {l : List Char} (h : c ∈ trimChars l) :
    c ∈ l := by
  unfold trimChars at h
  have h1 := List.mem_reverse.mp h
  have h2 := (List.dropWhile_sublist _).mem h1
  have h3 := List.mem_reverse.mp h2
  exact (List.dropWhile_sublist _).mem h3

/-- Claim C9: keyword search strips the FTS5 special characters `* " ( )`
before matching, and any residual FTS5 syntax error raised by the escaped
query is caught and converted into an empty result — the search is total
on every query string. -/
theorem keywordSearch_handles_malformed (ftsError : String → Bool)
    (bm25 : FtsRow → ℚ) (table : List FtsRow) (query : String) (limit : ℕ)
    (exactNameBoost : ℚ) :
    (∀ c ∈ (escapeQueryForFts5 query).data,
      c ≠ '*' ∧ c ≠ '"' ∧ c ≠ '(' ∧ c ≠ ')') ∧
    (ftsError (escapeQueryForFts5 query) = true →
      keywordSearch ftsError bm25 table query limit exactNameBoost = []) := by
  constructor
  · intro c hc
    have hmem : c ∈ query.data.map
        (fun c => if c = '*' ∨ c = '"' ∨ c = '(' ∨ c = ')' then ' ' else c) :=
      mem_trimChars hc
    rcases List.mem_map.mp hmem with ⟨a, _, hac⟩
    by_cases ha : a = '*' ∨ a = '"' ∨ a = '(' ∨ a = ')'
    · rw [if_pos ha] at hac
      rw [← hac]
      refine ⟨?_, ?_, ?_, ?_⟩ <;> decide
    · rw [if_neg ha] at hac
      rw [← hac]
      push_neg at ha
      exact ⟨ha.1, ha.2.1, ha.2.2.1, ha.2.2.2⟩
  · intro herr
    unfold keywordSearch
    by_cases hempty : (escapeQueryForFts5 query == "") = true
    · rw [if_pos hempty]
    · rw [if_neg hempty]
      have hraw : executeKeywordSearch ftsError bm25 table
          (escapeQueryForFts5 query) (limit * 2) = [] := by
        unfold executeKeywordSearch
        rw [if_pos herr]
      rw [hraw, if_pos rfl]

end KeywordSearch

/-- Witness for C9: discharging the error hypothesis at the concrete query
`"a*b"` (whose escaped form is `"a b"`) with an FTS oracle that rejects
exactly that escaped query. -/
theorem keywordSearch_handles_malformed_witness :
    ((fun s => s == "a b") (KeywordSearch.escapeQueryForFts5 "a*b")) = true ∧
      KeywordSearch.keywordSearch (fun s => s == "a b") (fun _ => 0) []
        "a*b" 20 2 = [] :=
  ⟨by decide,
    (KeywordSearch.keywordSearch_handles_malformed (fun s => s == "a b")
      (fun _ => 0) [] "a*b" 20 2).2 (by decide)⟩

/-- Counterexample for C2: two stores that agree on branch `main` but
differ on branch `feature` give different keyword-leg results for the
same query, and the extra result is a `feature`-branch symbol — the FTS
query has no branch filter. -/
theorem keywordLeg_crosses_branches :
    List.filter (fun s => s.branch == "main") [symAlpha] =
        List.filter (fun s => s.branch == "main") [symAlpha, symQuux] ∧
      (KeywordSearch.keywordLeg (fun _ => false) (fun _ => 0) [symAlpha]
          "quux").map (fun m => m.symbolId) = [] ∧
      (KeywordSearch.keywordLeg (fun _ => false) (fun _ => 0)
          [symAlpha, symQuux] "quux").map (fun m => m.symbolId) = ["s1"] ∧
      symQuux.branch = "feature" := by
  refine ⟨by decide, by decide, by decide, by decide⟩

namespace VectorSearch

/-- Claim C2 (amended, positive part): the vector leg is branch-sound —
every match returned by the pure-JS vector search with a branch filter
corresponds to a symbol stored on that branch. -/
theorem searchWithPureJs_branch_sound (sqrtFn : ℚ → ℚ)
    (symbols : List SymbolRow) (jsVectors : List JsVectorRow)
    (queryEmbedding : List ℚ) (limit : ℕ) (b : String)
    (m : VectorSearchMatch)
    (hm : m ∈ searchWithPureJs sqrtFn symbols jsVectors queryEmbedding limit
      (some b)) :
    ∃ s ∈ symbols, s.id = m.symbolId ∧ s.branch = b := by
  unfold searchWithPureJs at hm
  have hm2 := List.mem_of_mem_take hm
  rw [(List.perm_insertionSort _ _).mem_iff] at hm2
  rcases List.mem_map.mp hm2 with ⟨row, hrow, hrm⟩
  have hrow2 : row ∈ jsVectors ∧
      ∃ s ∈ symbols, s.id = row.symbol_id ∧ s.branch = b := by
    simpa [joinRowsForBranch, List.mem_filter] using hrow
  rcases hrow2.2 with ⟨s, hs, hid, hb⟩
  refine ⟨s, hs, ?_, hb⟩
  rw [hid, ← hrm]

end VectorSearch

/-- Witness for C2's amended theorem: a concrete branch-filtered search
whose single match is traced back to a `main`-branch symbol. -/
theorem searchWithPureJs_branch_sound_witness :
    ∃ s ∈ [mkSym "s0" "f" "main"],
      s.id = (VectorSearch.VectorSearchMatch.mk "s0" 1 0).symbolId ∧
        s.branch = "main" := by
  have hmem : (VectorSearch.VectorSearchMatch.mk "s0" 1 0) ∈
      VectorSearch.searchWithPureJs (fun _ => 0) [mkSym "s0" "f" "main"]
        [jvRowDim0] [] 20 (some "main") := by
    simp [VectorSearch.searchWithPureJs, VectorSearch.joinRowsForBranch,
      VectorSearch.cosineSimilarity, jvRowDim0, mkSym, List.insertionSort,
      List.orderedInsert]
  exact VectorSearch.searchWithPureJs_branch_sound (fun _ => 0) _ _ _ _ _ _ hmem

namespace VectorSearch

/-- Claim C10: `cosineSimilarity` is total in the embedding dimension —
a length mismatch yields similarity 0, an all-zero vector yields
similarity 0 (given `sqrt 0 = 0`), and the pure-JS search returns a
mismatched-dimension stored vector as a match with similarity 0 and
distance 1 (rather than erroring or dropping it), whenever the table fits
inside the result limit. -/
theorem cosineSimilarity_total (sqrtFn : ℚ → ℚ)
    (symbols : List SymbolRow) (jsVectors : List JsVectorRow)
    (queryEmbedding : List ℚ) (limit : ℕ) (jv : JsVectorRow)
    (hsqrt : sqrtFn 0 = 0)
    (hjv : jv ∈ jsVectors)
    (hdim : queryEmbedding.length ≠ jv.embedding.length)
    (hfits : jsVectors.length ≤ limit) :
    (∀ a b2 : List ℚ, a.length ≠ b2.length →
      cosineSimilarity sqrtFn a b2 = 0) ∧
    (∀ a b2 : List ℚ, (∀ x ∈ a, x = (0 : ℚ)) →
      cosineSimilarity sqrtFn a b2 = 0) ∧
    (VectorSearchMatch.mk jv.symbol_id 1 0 ∈
      searchWithPureJs sqrtFn symbols jsVectors queryEmbedding limit none) := by
  have hzero : ∀ a b2 : List ℚ, a.length ≠ b2.length →
      cosineSimilarity sqrtFn a b2 = 0 := by
    intro a b2 hne
    unfold cosineSimilarity
    rw [if_pos hne]
  refine ⟨hzero, ?_, ?_⟩
  · intro a b2 hall
    unfold cosineSimilarity
    by_cases hlen : a.length ≠ b2.length
    · rw [if_pos hlen]
    · rw [if_neg hlen]
      have hnorm : (a.map (fun x => x * x)).sum = 0 := by
        apply List.sum_eq_zero
        intro x hx
        rcases List.mem_map.mp hx with ⟨y, hy, hxy⟩
        rw [← hxy, hall y hy, mul_zero]
      simp [hnorm, hsqrt]
  · unfold searchWithPureJs
    have hsim : cosineSimilarity sqrtFn queryEmbedding jv.embedding = 0 :=
      hzero _ _ hdim
    have hmemres : VectorSearchMatch.mk jv.symbol_id 1 0 ∈
        (joinRowsForBranch symbols jsVectors none).map (fun row =>
          VectorSearchMatch.mk row.symbol_id
            (1 - cosineSimilarity sqrtFn queryEmbedding row.embedding)
            (cosineSimilarity sqrtFn queryEmbedding row.embedding)) := by
      apply List.mem_map.mpr
      refine ⟨jv, by simpa [joinRowsForBranch] using hjv, ?_⟩
      rw [hsim]
      norm_num
    set results := (joinRowsForBranch symbols jsVectors none).map (fun row =>
      VectorSearchMatch.mk row.symbol_id
        (1 - cosineSimilarity sqrtFn queryEmbedding row.embedding)
        (cosineSimilarity sqrtFn queryEmbedding row.embedding)) with hres
    have hlen : (List.insertionSort
        (fun a b : VectorSearchMatch => b.similarity ≤ a.similarity)
        results).length ≤ limit := by
      rw [(List.perm_insertionSort _ _).length_eq]
      calc results.length = jsVectors.length := by
            simp [hres, joinRowsForBranch]
        _ ≤ limit := hfits
    rw [List.take_of_length_le hlen]
    rw [(List.perm_insertionSort _ _).mem_iff]
    exact hmemres

end VectorSearch

/-- Witness for C10: the sole stored vector has dimension 2, the query
dimension 0 — the symbol is still returned, with distance 1 and
similarity 0. -/
theorem cosineSimilarity_total_witness :
    VectorSearch.VectorSearchMatch.mk "v1" 1 0 ∈
      VectorSearch.searchWithPureJs (fun _ => 0) [] [jvRowDim2] [] 20 none :=
  (VectorSearch.cosineSimilarity_total (fun _ => 0) [] [jvRowDim2] [] 20
    jvRowDim2 rfl (by decide) (by decide) (by decide)).2.2

theorem jsMapGet_isSome_iff {κ ν : Type} [DecidableEq κ]
    (m : List (κ × ν)) (d : κ) :
    (jsMapGet m d).isSome = true ↔ d ∈ m.map Prod.fst := by
  induction m with
  | nil => simp [jsMapGet]
  | cons p t ih =>
    by_cases hp : p.1 = d
    · simp [jsMapGet_cons, hp]
    · simp only [jsMapGet_cons, if_neg hp, List.map_cons, List.mem_cons]
      rw [ih]
      constructor
      · exact Or.inr
      · rintro (h | h)
        · exact absurd h.symm hp
        · exact h

theorem keys_jsMapSet_replace {κ ν : Type} [DecidableEq κ]
    (m : List (κ × ν)) (k : κ) (v : ν) :
    (m.map (fun q => if q.1 = k then (k, v) else q)).map Prod.fst =
      m.map Prod.fst := by
  induction m with
  | nil => rfl
  | cons q t ih =>
    by_cases hq : q.1 = k
    · simp only [List.map_cons, if_pos hq, ih]
      rw [hq]
    · simp only [List.map_cons, if_neg hq, ih]

theorem keys_jsMapSet_nodup {κ ν : Type} [DecidableEq κ]
    (m : List (κ × ν)) (k : κ) (v : ν)
    (hn : (m.map Prod.fst).Nodup) :
    ((jsMapSet m k v).map Prod.fst).Nodup := by
  unfold jsMapSet
  split
  case isTrue hany => rw [keys_jsMapSet_replace]; exact hn
  case isFalse hany =>
    rw [List.map_append]
    refine hn.append (by simp) ?_
    intro d hd hd2
    simp only [List.map_cons, List.map_nil, List.mem_singleton] at hd2
    subst hd2
    rcases List.mem_map.mp hd with ⟨q, hq, hqk⟩
    exact hany (List.any_eq_true.mpr ⟨q, hq, by simp [hqk]⟩)

namespace RrfFusion

theorem scoreOf_addRrf (k : ℚ) (m : List (String × ℚ)) (it : RankedItem)
    (d : String) :
    scoreOf (addRrf k m it) d =
      scoreOf m d + (if it.symbolId = d then 1 / (k + (it.rank : ℚ)) else 0) := by
  unfold addRrf scoreOf
  by_cases hd : it.symbolId = d
  · subst hd
    rw [jsMapGet_set_self]
    simp
  · rw [jsMapGet_set_other _ _ _ _ (fun h => hd h.symm), if_neg hd, add_zero]

theorem scoreOf_foldl (k : ℚ) :
    ∀ (items : List RankedItem) (m : List (String × ℚ)) (d : String),
    scoreOf (items.foldl (addRrf k) m) d =
      scoreOf m d +
        ((items.filter (fun it => it.symbolId == d)).map
          (fun it => 1 / (k + (it.rank : ℚ)))).sum
  | [], m, d => by simp
  | it :: rest, m, d => by
    rw [List.foldl_cons, scoreOf_foldl k rest (addRrf k m it) d,
      scoreOf_addRrf]
    by_cases hd : it.symbolId = d
    · rw [if_pos hd, List.filter_cons_of_pos (by simp [hd]), List.map_cons,
        List.sum_cons]
      ring
    · rw [if_neg hd, List.filter_cons_of_neg (by simp [hd]), add_zero]

theorem keys_addRrf_isSome (k : ℚ) (m : List (String × ℚ)) (it : RankedItem)
    (d : String) :
    (jsMapGet (addRrf k m it) d).isSome = true ↔
      (jsMapGet m d).isSome = true ∨ d = it.symbolId := by
  unfold addRrf
  by_cases hd : d = it.symbolId
  · subst hd
    rw [jsMapGet_set_self]
    simp
  · rw [jsMapGet_set_other _ _ _ _ hd]
    simp [hd]

theorem keys_foldl_isSome (k : ℚ) :
    ∀ (items : List RankedItem) (m : List (String × ℚ)) (d : String),
    (jsMapGet (items.foldl (addRrf k) m) d).isSome = true ↔
      (jsMapGet m d).isSome = true ∨
        d ∈ items.map (fun it => it.symbolId)
  | [], m, d => by simp
  | it :: rest, m, d => by
    rw [List.foldl_cons, keys_foldl_isSome k rest (addRrf k m it) d,
      keys_addRrf_isSome]
    simp only [List.map_cons, List.mem_cons]
    tauto

theorem keys_addRrf_nodup (k : ℚ) (m : List (String × ℚ)) (it : RankedItem)
    (hn : (m.map Prod.fst).Nodup) :
    ((addRrf k m it).map Prod.fst).Nodup :=
  keys_jsMapSet_nodup m it.symbolId _ hn

theorem keys_foldl_nodup (k : ℚ) :
    ∀ (items : List RankedItem) (m : List (String × ℚ)),
    (m.map Prod.fst).Nodup →
    (((items.foldl (addRrf k) m)).map Prod.fst).Nodup
  | [], _, hn => hn
  | it :: rest, m, hn => by
    rw [List.foldl_cons]
    exact keys_foldl_nodup k rest (addRrf k m it) (keys_addRrf_nodup k m it hn)

theorem scoreOf_mem (p : String × ℚ) :
    ∀ (m : List (String × ℚ)), p ∈ m → (m.map Prod.fst).Nodup →
      scoreOf m p.1 = p.2
  | [], hp, _ => absurd hp (by simp)
  | q :: t, hp, hn => by
    rcases List.mem_cons.mp hp with h | h
    · subst h
      unfold scoreOf
      rw [jsMapGet_cons, if_pos rfl]
      rfl
    · have hne : p.1 ≠ q.1 := by
        intro he
        have hq1 : q.1 ∈ t.map Prod.fst := he ▸ List.mem_map_of_mem Prod.fst h
        exact (List.nodup_cons.mp (by simpa using hn)).1 hq1
      unfold scoreOf
      rw [jsMapGet_cons, if_neg (fun he => hne he.symm)]
      exact scoreOf_mem p t h (List.nodup_cons.mp (by simpa using hn)).2

end RrfFusion

namespace RrfFusion

theorem assignRanksAux_map (source : String) :
    ∀ (l : List String) (i : ℕ),
    (assignRanksAux source l i).map (fun it => it.symbolId) = l
  | [], _ => rfl
  | a :: t, i => by
    simp only [assignRanksAux, List.map_cons, assignRanksAux_map source t]

theorem assignRanksAux_filter_nil (source : String) (d : String) :
    ∀ (l : List String) (i : ℕ), d ∉ l →
    (assignRanksAux source l i).filter (fun it => it.symbolId == d) = []
  | [], _, _ => rfl
  | a :: t, i, hd => by
    have hda : ¬ (a = d) := fun h => hd (h ▸ List.mem_cons_self a t)
    simp only [assignRanksAux]
    rw [List.filter_cons_of_neg (by simpa using hda)]
    exact assignRanksAux_filter_nil source d t (i + 1)
      (fun h => hd (List.mem_cons_of_mem a h))

theorem assignRanksAux_contribution (k : ℚ) (source : String) (d : String) :
    ∀ (l : List String) (i : ℕ), l.Nodup →
    (((assignRanksAux source l i).filter (fun it => it.symbolId == d)).map
      (fun it => 1 / (k + (it.rank : ℚ)))).sum =
      if d ∈ l then 1 / (k + (i : ℚ) + (l.indexOf d : ℚ) + 1) else 0
  | [], i, _ => by simp [assignRanksAux]
  | a :: t, i, hnd => by
    simp only [assignRanksAux]
    by_cases hda : a = d
    · subst hda
      rw [List.filter_cons_of_pos (by simp), List.map_cons, List.sum_cons,
        assignRanksAux_filter_nil source a t (i + 1)
          (List.nodup_cons.mp hnd).1]
      rw [if_pos (List.mem_cons_self a t), List.indexOf_cons_self]
      push_cast
      ring_nf
      simp
    · rw [List.filter_cons_of_neg (by simpa using hda),
        assignRanksAux_contribution k source d t (i + 1)
          (List.nodup_cons.mp hnd).2]
      by_cases hdt : d ∈ t
      · rw [if_pos hdt, if_pos (List.mem_cons_of_mem a hdt),
          List.indexOf_cons_ne _ (fun h => hda h)]
        push_cast
        ring_nf
      · rw [if_neg hdt,
          if_neg (fun h => (List.mem_cons.mp h).elim (fun h2 => hda h2.symm) hdt)]

end RrfFusion

namespace RrfFusion

theorem scoreOf_nil (d : String) : scoreOf [] d = 0 := rfl

/-- Claim C5: for duplicate-free input rankings, `fuseWithRrf` assigns
every returned symbol the score `Σ_ℓ 1 / (60 + rank_ℓ(d))` over the
contributing lists, returns each symbol id exactly once (exactly the ids
of the two inputs), and sorts by fused score descending. -/
theorem fuseWithRrf_spec (V K : List String) (hV : V.Nodup) (hK : K.Nodup) :
    (∀ r ∈ fuseWithRrf V K,
      r.rrfScore = specContribution V r.symbolId +
        specContribution K r.symbolId) ∧
    ((fuseWithRrf V K).map (fun r => r.symbolId)).Nodup ∧
    (∀ d, d ∈ (fuseWithRrf V K).map (fun r => r.symbolId) ↔
      d ∈ V ∨ d ∈ K) ∧
    (fuseWithRrf V K).Sorted (fun a b => b.rrfScore ≤ a.rrfScore) := by
  haveI hTot : IsTotal FusedResult (fun a b => b.rrfScore ≤ a.rrfScore) :=
    ⟨fun a b => (le_total b.rrfScore a.rrfScore)⟩
  haveI hTrans : IsTrans FusedResult (fun a b => b.rrfScore ≤ a.rrfScore) :=
    ⟨fun _ _ _ hab hbc => le_trans hbc hab⟩
  by_cases hemp : V = [] ∧ K = []
  · obtain ⟨hv, hk⟩ := hemp
    subst hv
    subst hk
    refine ⟨by simp [fuseWithRrf], by simp [fuseWithRrf], by simp [fuseWithRrf], ?_⟩
    simp [fuseWithRrf]
  · have hout : fuseWithRrf V K = sortByRrfScoreDescending
        (buildFusedResults (computeRrfScores (assignRanks V "vector")
          (assignRanks K "keyword") 60) (assignRanks V "vector")
          (assignRanks K "keyword")) := by
      unfold fuseWithRrf
      rw [if_neg hemp]
    have hkeys : ((computeRrfScores (assignRanks V "vector")
        (assignRanks K "keyword") 60).map Prod.fst).Nodup :=
      keys_foldl_nodup 60 _ [] (by simp)
    have hmapids : (buildFusedResults (computeRrfScores
        (assignRanks V "vector") (assignRanks K "keyword") 60)
        (assignRanks V "vector") (assignRanks K "keyword")).map
          (fun r => r.symbolId) =
        (computeRrfScores (assignRanks V "vector")
          (assignRanks K "keyword") 60).map Prod.fst := by
      unfold buildFusedResults
      rw [List.map_map]
      rfl
    have hperm : (fuseWithRrf V K).Perm (buildFusedResults
        (computeRrfScores (assignRanks V "vector")
          (assignRanks K "keyword") 60) (assignRanks V "vector")
        (assignRanks K "keyword")) := by
      rw [hout]
      exact List.perm_insertionSort _ _
    refine ⟨?_, ?_, ?_, ?_⟩
    · intro r hr
      have hr2 := hperm.mem_iff.mp hr
      unfold buildFusedResults at hr2
      rcases List.mem_map.mp hr2 with ⟨p, hp, hpr⟩
      have hscore : scoreOf (computeRrfScores (assignRanks V "vector")
          (assignRanks K "keyword") 60) p.1 = p.2 :=
        scoreOf_mem p _ hp hkeys
      have hfold : scoreOf (computeRrfScores (assignRanks V "vector")
          (assignRanks K "keyword") 60) p.1 =
          specContribution V p.1 + specContribution K p.1 := by
        unfold computeRrfScores
        rw [scoreOf_foldl, scoreOf_nil, zero_add, List.filter_append,
          List.map_append, List.sum_append]
        unfold assignRanks
        rw [assignRanksAux_contribution 60 "vector" p.1 V 0 hV,
          assignRanksAux_contribution 60 "keyword" p.1 K 0 hK]
        unfold specContribution
        push_cast
        ring_nf
      rw [← hpr]
      simp only
      rw [← hscore, hfold]
    · exact ((hperm.map (fun r => r.symbolId)).nodup_iff).mpr
        (hmapids ▸ hkeys)
    · intro d
      rw [(hperm.map (fun r => r.symbolId)).mem_iff, hmapids,
        ← jsMapGet_isSome_iff]
      unfold computeRrfScores
      rw [keys_foldl_isSome, List.map_append]
      unfold assignRanks
      rw [assignRanksAux_map, assignRanksAux_map, List.mem_append]
      simp [jsMapGet]
    · rw [hout]
      unfold sortByRrfScoreDescending
      exact List.sorted_insertionSort _ _

end RrfFusion

/-- Witness for C5: concrete duplicate-free rankings; the fused output is
sorted by descending RRF score. -/
theorem fuseWithRrf_spec_witness :
    (["a", "b"] : List String).Nodup ∧
      (RrfFusion.fuseWithRrf ["a", "b"] ["b"]).Sorted
        (fun a b => b.rrfScore ≤ a.rrfScore) :=
  ⟨by decide,
    (RrfFusion.fuseWithRrf_spec ["a", "b"] ["b"] (by decide) (by decide)).2.2.2⟩

namespace ContextBudget

theorem sumTokens_cons (s : SymbolRow) (l : List SymbolRow) :
    sumTokens (s :: l) = blockTokens s + sumTokens l := by
  simp [sumTokens, blockTokens]

theorem estimate_truncate_le (t : String) (m : ℕ) (hm : 1 ≤ m) :
    estimateTokens (truncateToTokens t m) ≤ m := by
  unfold truncateToTokens estimateTokens
  by_cases hlen : t.length ≤ m * 4
  · rw [if_pos hlen]
    omega
  · rw [if_neg hlen]
    push_neg at hlen
    have hdata : t.data.length = t.length := rfl
    have : (String.mk (t.data.take (m * 4 - 3)) ++ "...").length =
        (m * 4 - 3) + 3 := by
      rw [String.length_append]
      have h1 : (String.mk (t.data.take (m * 4 - 3))).length =
          min (m * 4 - 3) t.data.length := by
        show (t.data.take (m * 4 - 3)).length = _
        exact List.length_take _ _
      rw [h1, hdata]
      have : min (m * 4 - 3) t.length = m * 4 - 3 := by omega
      rw [this]
      rfl
    rw [this]
    omega

theorem estimate_truncate_eq (t : String) (m : ℕ) (hm : 1 ≤ m)
    (hover : m < estimateTokens t) :
    estimateTokens (truncateToTokens t m) = m := by
  unfold estimateTokens at hover
  unfold truncateToTokens estimateTokens
  have hlen : ¬ (t.length ≤ m * 4) := by omega
  rw [if_neg hlen]
  have hdata : t.data.length = t.length := rfl
  have hl : (String.mk (t.data.take (m * 4 - 3)) ++ "...").length =
      (m * 4 - 3) + 3 := by
    rw [String.length_append]
    have h1 : (String.mk (t.data.take (m * 4 - 3))).length =
        min (m * 4 - 3) t.data.length := by
      show (t.data.take (m * 4 - 3)).length = _
      exact List.length_take _ _
    rw [h1, hdata]
    have : min (m * 4 - 3) t.length = m * 4 - 3 := by omega
    rw [this]
    rfl
  rw [hl]
  omega

theorem buildLoop_tokens_le (maxTokens : ℕ) :
    ∀ (l : List SymbolRow) (cur : ℕ), cur ≤ maxTokens →
      (buildLoop maxTokens l cur).2.2 ≤ maxTokens
  | [], cur, hcur => hcur
  | s :: rest, cur, hcur => by
    simp only [buildLoop]
    by_cases hover : cur + estimateTokens (formatSymbolContext s) > maxTokens
    · rw [if_pos hover]
      by_cases h100 : maxTokens - cur > 100
      · rw [if_pos h100]
        have := estimate_truncate_le (formatSymbolContext s)
          (maxTokens - cur) (by omega)
        simp only
        omega
      · rw [if_neg h100]
        exact hcur
    · rw [if_neg hover]
      exact buildLoop_tokens_le maxTokens rest
        (cur + estimateTokens (formatSymbolContext s)) (by omega)

theorem buildLoop_spec (maxTokens : ℕ) :
    ∀ (l : List SymbolRow) (cur n : ℕ),
    cur + sumTokens (l.take n) ≤ maxTokens →
    (n = l.length ∨
      (n < l.length ∧ maxTokens < cur + sumTokens (l.take (n + 1)))) →
    ((n = l.length → (buildLoop maxTokens l cur).1 = l ∧
        (buildLoop maxTokens l cur).2.2 = cur + sumTokens l) ∧
     (n < l.length → 100 < maxTokens - (cur + sumTokens (l.take n)) →
        (buildLoop maxTokens l cur).1 = l.take (n + 1) ∧
        (buildLoop maxTokens l cur).2.2 = maxTokens) ∧
     (n < l.length → maxTokens - (cur + sumTokens (l.take n)) ≤ 100 →
        (buildLoop maxTokens l cur).1 = l.take n ∧
        (buildLoop maxTokens l cur).2.2 = cur + sumTokens (l.take n)))
  | [], cur, n, hfit, hn => by
    refine ⟨?_, ?_, ?_⟩
    · intro _
      simp [buildLoop, sumTokens]
    · intro hlt _
      exact absurd hlt (by simp)
    · intro hlt _
      exact absurd hlt (by simp)
  | s :: rest, cur, n, hfit, hn => by
    cases n with
    | zero =>
      rcases hn with hn | hn
      · exact absurd hn.symm (by simp)
      · obtain ⟨hlt, hover⟩ := hn
        rw [List.take_succ_cons, List.take_zero, sumTokens_cons] at hover
        simp only [List.take_zero, sumTokens, List.map_nil, List.sum_nil,
          add_zero] at hfit ⊢
        have hcond : cur + estimateTokens (formatSymbolContext s) >
            maxTokens := by
          have : sumTokens [] = 0 := rfl
          unfold blockTokens at hover
          omega
        refine ⟨?_, ?_, ?_⟩
        · intro h
          exact absurd h.symm (by simp)
        · intro _ h100
          simp only [buildLoop, if_pos hcond, if_pos h100]
          refine ⟨rfl, ?_⟩
          have heq := estimate_truncate_eq (formatSymbolContext s)
            (maxTokens - cur) (by omega) (by unfold blockTokens at hover; omega)
          simp only [heq]
          omega
        · intro _ h100
          simp [buildLoop, if_pos hcond, if_neg (by omega : ¬ (maxTokens - cur > 100))]
    | succ m =>
      rw [List.take_succ_cons, sumTokens_cons] at hfit
      have hcond : ¬ (cur + estimateTokens (formatSymbolContext s) >
          maxTokens) := by
        unfold blockTokens at hfit
        omega
      have hfit2 : (cur + estimateTokens (formatSymbolContext s)) +
          sumTokens (rest.take m) ≤ maxTokens := by
        unfold blockTokens at hfit
        omega
      have hn2 : m = rest.length ∨ (m < rest.length ∧
          maxTokens < (cur + estimateTokens (formatSymbolContext s)) +
            sumTokens (rest.take (m + 1))) := by
        rcases hn with hn | hn
        · left
          simpa using hn
        · right
          obtain ⟨h1, h2⟩ := hn
          rw [List.take_succ_cons, sumTokens_cons] at h2
          unfold blockTokens at h2
          exact ⟨by simpa using h1, by omega⟩
      have IH := buildLoop_spec maxTokens rest
        (cur + estimateTokens (formatSymbolContext s)) m hfit2 hn2
      refine ⟨?_, ?_, ?_⟩
      · intro h
        have hm : m = rest.length := by simpa using h
        obtain ⟨h1, h2⟩ := IH.1 hm
        simp only [buildLoop, if_neg hcond]
        refine ⟨?_, ?_⟩
        · simp only [h1]
        · rw [h2, sumTokens_cons]
          unfold blockTokens
          omega
      · intro hlt h100
        have hm : m < rest.length := by simpa using hlt
        rw [List.take_succ_cons, sumTokens_cons] at h100
        obtain ⟨h1, h2⟩ := IH.2.1 hm (by unfold blockTokens at h100; omega)
        simp only [buildLoop, if_neg hcond]
        refine ⟨?_, h2⟩
        rw [List.take_succ_cons, h1]
      · intro hlt h100
        have hm : m < rest.length := by simpa using hlt
        rw [List.take_succ_cons, sumTokens_cons] at h100
        obtain ⟨h1, h2⟩ := IH.2.2 hm (by unfold blockTokens at h100; omega)
        simp only [buildLoop, if_neg hcond]
        refine ⟨?_, ?_⟩
        · rw [List.take_succ_cons, h1]
        · rw [h2, List.take_succ_cons, sumTokens_cons]
          unfold blockTokens
          omega

/-- Claim C6 (amended): blocks are appended in order with token estimate
`⌈len/4⌉`; when the next full block would exceed `max_tokens` it is
truncated to the remaining budget provided **strictly more than 100**
tokens remain (otherwise it is dropped), all further symbols are skipped,
and the returned token count never exceeds `max_tokens`. -/
theorem buildContextWithinBudget_spec (symbols : List SymbolRow)
    (maxTokens n : ℕ)
    (hfit : sumTokens (symbols.take n) ≤ maxTokens)
    (hn : n = symbols.length ∨
      (n < symbols.length ∧ maxTokens < sumTokens (symbols.take (n + 1)))) :
    (buildContextWithinBudget symbols maxTokens).tokenCount ≤ maxTokens ∧
    (n = symbols.length →
      (buildContextWithinBudget symbols maxTokens).symbols = symbols ∧
      (buildContextWithinBudget symbols maxTokens).tokenCount =
        sumTokens symbols) ∧
    (n < symbols.length → 100 < maxTokens - sumTokens (symbols.take n) →
      (buildContextWithinBudget symbols maxTokens).symbols =
        symbols.take (n + 1) ∧
      (buildContextWithinBudget symbols maxTokens).tokenCount = maxTokens) ∧
    (n < symbols.length → maxTokens - sumTokens (symbols.take n) ≤ 100 →
      (buildContextWithinBudget symbols maxTokens).symbols =
        symbols.take n ∧
      (buildContextWithinBudget symbols maxTokens).tokenCount =
        sumTokens (symbols.take n)) := by
  have hloop := buildLoop_spec maxTokens symbols 0 n (by omega)
    (by rcases hn with h | h
        · exact Or.inl h
        · exact Or.inr ⟨h.1, by omega⟩)
  have hsy : (buildContextWithinBudget symbols maxTokens).symbols =
      (buildLoop maxTokens symbols 0).1 := rfl
  have htc : (buildContextWithinBudget symbols maxTokens).tokenCount =
      (buildLoop maxTokens symbols 0).2.2 := rfl
  refine ⟨?_, ?_, ?_, ?_⟩
  · rw [htc]
    exact buildLoop_tokens_le maxTokens symbols 0 (by omega)
  · intro h
    obtain ⟨h1, h2⟩ := hloop.1 h
    rw [hsy, htc, h1, h2]
    exact ⟨rfl, by omega⟩
  · intro hlt h100
    obtain ⟨h1, h2⟩ := hloop.2.1 hlt (by omega)
    rw [hsy, htc, h1, h2]
    exact ⟨rfl, rfl⟩
  · intro hlt h100
    obtain ⟨h1, h2⟩ := hloop.2.2 hlt (by omega)
    rw [hsy, htc, h1, h2]
    exact ⟨rfl, by omega⟩

end ContextBudget

set_option maxRecDepth 100000 in
/-- Counterexample for C6 as stated: with `max_tokens = 100` and a single
119-token block, the remainder is exactly 100 tokens (so a "≥ 100 minimum
remainder" holds), yet the code emits nothing: the truncation guard is
strictly `remaining > 100`. -/
theorem buildContext_boundary_counterexample :
    100 < ContextBudget.blockTokens budgetSym ∧
      (ContextBudget.buildContextWithinBudget [budgetSym] 100).symbols = [] ∧
      (ContextBudget.buildContextWithinBudget [budgetSym] 100).tokenCount = 0 :=
  ⟨by decide, by decide, by decide⟩

set_option maxRecDepth 100000 in
/-- Witness for the amended C6 at a concrete oversized block and
`max_tokens = 120`: the block is truncated and the token count is exactly
the budget. -/
theorem buildContextWithinBudget_spec_witness :
    ContextBudget.sumTokens ([budgetSymBig].take 0) ≤ 120 ∧
      ((ContextBudget.buildContextWithinBudget [budgetSymBig] 120).symbols =
          [budgetSymBig].take 1 ∧
        (ContextBudget.buildContextWithinBudget [budgetSymBig]
          120).tokenCount = 120) :=
  ⟨by decide,
    (ContextBudget.buildContextWithinBudget_spec [budgetSymBig] 120 0
      (by decide) (Or.inr ⟨by decide, by decide⟩)).2.2.1 (by decide)
      (by decide)⟩

namespace BranchDiff

theorem mem_filesOnlyIn (store : List SymbolRow) (a b : String) (p : String) :
    p ∈ filesOnlyIn store a b ↔
      ∃ s ∈ store, s.branch = a ∧ s.file_path = p ∧
        ¬ ∃ t ∈ store, t.branch = b ∧ t.file_path = p := by
  unfold filesOnlyIn
  simp only [List.mem_map, List.mem_filter, Bool.and_eq_true, beq_iff_eq,
    Bool.not_eq_true', List.any_eq_false]
  constructor
  · rintro ⟨s, ⟨hs, hbr, hall⟩, hp⟩
    refine ⟨s, hs, hbr, hp, ?_⟩
    rintro ⟨t, ht, htb, htp⟩
    exact hall t ht ⟨htb, htp.trans hp.symm⟩
  · rintro ⟨s, hs, hbr, hp, hnot⟩
    refine ⟨s, ⟨hs, hbr, ?_⟩, hp⟩
    intro t ht
    rintro ⟨htb, htp⟩
    exact hnot ⟨t, ht, htb, htp.trans hp⟩

end BranchDiff

namespace BranchDiff

theorem mem_modifiedFiles (store : List SymbolRow) (src tgt p : String) :
    p ∈ modifiedFiles store src tgt ↔
      ∃ s ∈ store, ∃ t ∈ store, s.branch = src ∧ t.branch = tgt ∧
        t.qualified_name = s.qualified_name ∧
        s.content_hash ≠ t.content_hash ∧ s.file_path = p := by
  unfold modifiedFiles
  simp only [List.mem_flatMap, List.mem_filter, List.mem_map,
    Bool.and_eq_true, beq_iff_eq, Bool.not_eq_true', beq_eq_false_iff_ne,
    ne_eq]
  constructor
  · rintro ⟨s, hs, hp⟩
    by_cases hbr : s.branch = src
    · rw [if_pos hbr] at hp
      rcases List.mem_map.mp hp with ⟨t, htf, htp⟩
      obtain ⟨ht, hcond⟩ := List.mem_filter.mp htf
      simp only [Bool.and_eq_true, beq_iff_eq, Bool.not_eq_true',
        beq_eq_false_iff_ne, ne_eq] at hcond
      exact ⟨s, hs, t, ht, hbr, hcond.1.1, hcond.1.2, hcond.2, htp⟩
    · rw [if_neg hbr] at hp
      exact absurd hp (List.not_mem_nil p)
  · rintro ⟨s, hs, t, ht, hbr, htb, htq, hh, hp⟩
    refine ⟨s, hs, ?_⟩
    rw [if_pos hbr]
    apply List.mem_map.mpr
    refine ⟨t, ?_, hp⟩
    apply List.mem_filter.mpr
    refine ⟨ht, ?_⟩
    simp [htb, htq, hh]

end BranchDiff

namespace BranchDiff

/-- Claim C3 (amended): `affected_files` is exactly the set of file paths
that exist on only one of the two branches, together with the (source)
file paths of symbols present on both branches with differing content
hashes.  An added symbol inside a file that exists on both branches does
not contribute. -/
theorem affectedFiles_characterization (store : List SymbolRow)
    (src tgt p : String) :
    p ∈ affectedFiles store src tgt ↔
      (∃ s ∈ store, s.branch = src ∧ s.file_path = p ∧
        ¬ ∃ t ∈ store, t.branch = tgt ∧ t.file_path = p) ∨
      (∃ t ∈ store, t.branch = tgt ∧ t.file_path = p ∧
        ¬ ∃ s ∈ store, s.branch = src ∧ s.file_path = p) ∨
      (∃ s ∈ store, ∃ t ∈ store, s.branch = src ∧ t.branch = tgt ∧
        t.qualified_name = s.qualified_name ∧
        s.content_hash ≠ t.content_hash ∧ s.file_path = p) := by
  unfold affectedFiles
  rw [(List.perm_insertionSort _ _).mem_iff, List.mem_dedup,
    List.mem_append, List.mem_append, mem_filesOnlyIn, mem_filesOnlyIn,
    mem_modifiedFiles]
  exact or_assoc

end BranchDiff

/-- Counterexample for C3: a symbol added on the source branch inside a
file that exists on both branches is reported in `added`, but its file
path does not appear in `affected_files` — which here is empty while the
union of added/removed/modified file paths is `["f.ts"]`. -/
theorem affectedFiles_counterexample :
    (BranchDiff.addedSymbols diffStore "feature" "main" 1000).map
        (fun s => s.file_path) = ["f.ts"] ∧
      BranchDiff.removedSymbols diffStore "feature" "main" 1000 = [] ∧
      BranchDiff.modifiedPairs diffStore "feature" "main" 1000 = [] ∧
      BranchDiff.affectedFiles diffStore "feature" "main" = [] :=
  ⟨by decide, by decide, by decide, by decide⟩

namespace ImpactAnalysis

/-- Claim C7: whenever impact analysis returns a result, the risk is the
four-bracket function of the transitive dependent count found by the
callers-only BFS: low iff ≤ 3, medium iff 4–10, high iff 11–25, critical
iff > 25. -/
theorem analyzeImpact_risk_thresholds (symbols : List SymbolRow)
    (edges : List EdgeRow) (symbolId : String) (opts : ImpactOptions)
    (r : ImpactResult)
    (h : analyzeImpact symbols edges symbolId opts = some r) :
    (r.risk = Risk.low ↔ r.transitiveDependents ≤ 3) ∧
    (r.risk = Risk.medium ↔
      3 < r.transitiveDependents ∧ r.transitiveDependents ≤ 10) ∧
    (r.risk = Risk.high ↔
      10 < r.transitiveDependents ∧ r.transitiveDependents ≤ 25) ∧
    (r.risk = Risk.critical ↔ 25 < r.transitiveDependents) := by
  unfold analyzeImpact at h
  rcases Option.map_eq_some'.mp h with ⟨root, hroot, hfr⟩
  subst hfr
  simp only
  unfold calculateRiskLevel
  split_ifs with h1 h2 h3 <;> refine ⟨?_, ?_, ?_, ?_⟩ <;> simp <;> omega

end ImpactAnalysis

/-- Witness for C7 (the spec's end-to-end scenario): 12 symbols
transitively call `parseConfig`; the analysis reports 12 transitive
dependents and risk `high`. -/
theorem analyzeImpact_risk_thresholds_witness :
    (ImpactAnalysis.analyzeImpact impactSymbols impactEdges "r"
        impactOpts).map
      (fun r => (r.risk, r.transitiveDependents, r.directDependents)) =
      some (ImpactAnalysis.Risk.high, 12, 12) := by
  cases hA : ImpactAnalysis.analyzeImpact impactSymbols impactEdges "r"
      impactOpts with
  | none => exact absurd hA (by decide)
  | some r =>
    have hth := ImpactAnalysis.analyzeImpact_risk_thresholds impactSymbols
      impactEdges "r" impactOpts r hA
    have hcount : (ImpactAnalysis.analyzeImpact impactSymbols impactEdges "r"
        impactOpts).map (fun r => r.transitiveDependents) = some 12 := by
      decide
    have hdirect : (ImpactAnalysis.analyzeImpact impactSymbols impactEdges "r"
        impactOpts).map (fun r => r.directDependents) = some 12 := by
      decide
    rw [hA] at hcount hdirect
    simp only [Option.map, Option.some.injEq] at hcount hdirect
    have hrisk := (hth.2.2.1).mpr (by omega)
    simp only [Option.map, Option.some.injEq, Prod.mk.injEq]
    exact ⟨hrisk, hcount, hdirect⟩

/-- Witness for C4: after upserting `a.ts` on `main` and then on `dev`,
the `main` row is gone. -/
theorem upsert_second_branch_overwrites_witness :
    (fileRec "main").file_path = (fileRec "dev").file_path ∧
      FileStore.getByPath
        (FileStore.upsert (FileStore.upsert [] (fileRec "main"))
          (fileRec "dev"))
        (fileRec "main").file_path (fileRec "main").branch = none :=
  ⟨rfl, (FileStore.upsert_second_branch_overwrites [] (fileRec "main")
    (fileRec "dev") rfl (by decide)).1⟩
